import Mathlib

/-!
Verification development for the historical-world-map repository.

The embedded code:
* `LRUCache` and `DataService` from `src/lib/dataService.ts` — the bounded
  LRU cache, the coalescing `loadPeriod` loop, the worker-channel fallback
  and the worker request/response correlation table;
* `Utils.douglasPeucker`, `Utils.perpendicularDistance` and
  `Utils.simplifyCoordinates` from the utility module — the line
  simplification pass.

Modelling conventions:
* a JavaScript `Map` is modelled as an association list in insertion
  order (the first element is the oldest entry), which is exactly the
  iteration order the source exploits;
* numbers in the geometry code are modelled as rationals; the source
  computes `Math.sqrt(dx*dx + dy*dy)` and only ever compares distances
  with each other and with a nonnegative tolerance, so the embedding
  works with squared distances and a squared tolerance, which induces
  the same control flow because squaring is monotone on nonnegatives;
* `async` functions are modelled as state machines: an `await` is a
  suspension point and the resolution or rejection of the awaited
  promise is an explicit event.
-/

namespace HistMap

/-! ## LRUCache (src/lib/dataService.ts, lines 40-80)

The source backs the cache with a `Map<K, V>` and relies on insertion
order: the first entry is least recently used.  The model keeps the
entries as a list in the same order. -/

/-- Lookup in an association list, first match wins (JS `Map.get`,
except that `Map` has unique keys so first match is the only match). -/
def findVal {K V : Type} [DecidableEq K] (k : K) : List (K × V) → Option V
  | [] => none
  | (k₂, v) :: rest => if k₂ = k then some v else findVal k rest

/-- Remove the first entry with the given key (JS `Map.delete`). -/
def eraseKey {K V : Type} [DecidableEq K] (k : K) : List (K × V) → List (K × V)
  | [] => []
  | (k₂, v) :: rest => if k₂ = k then rest else (k₂, v) :: eraseKey k rest

/-- State of the `LRUCache` class: the backing map (insertion order,
oldest first) and the capacity `maxSize`. -/
structure LRUCache (K V : Type) where
  map : List (K × V)
  maxSize : Nat
deriving DecidableEq, Repr

namespace LRUCache

variable {K V : Type} [DecidableEq K]

/-- The `LRUCache(maxSize)` constructor: empty map. -/
def empty (K V : Type) (maxSize : Nat) : LRUCache K V := ⟨[], maxSize⟩

/-- Method `get`: on a hit, delete the entry and re-insert it at the end
(most recently used) and return the value; on a miss return nothing and
leave the cache unchanged.  Returns the value together with the updated
cache (the source mutates `this.map` in place). -/
def get (c : LRUCache K V) (k : K) : Option V × LRUCache K V :=
  match findVal k c.map with
  | some v => (some v, { c with map := eraseKey k c.map ++ [(k, v)] })
  | none => (none, c)

/-- Method `has`: key present in the backing map. -/
def has (c : LRUCache K V) (k : K) : Bool := (findVal k c.map).isSome

/-- Method `set`: if the key exists, delete it; otherwise if the map is
at (or above) capacity, delete the first key — `map.keys().next().value`
is the key of the first entry, so this drops the head of the list (on an
empty map the JS delete of `undefined` is a no-op, matching `List.tail`
on `[]`); finally insert the new entry at the end. -/
def set (c : LRUCache K V) (k : K) (v : V) : LRUCache K V :=
  if c.has k then { c with map := eraseKey k c.map ++ [(k, v)] }
  else if c.maxSize ≤ c.map.length then { c with map := c.map.tail ++ [(k, v)] }
  else { c with map := c.map ++ [(k, v)] }

/-- Property accessor `size`. -/
def size (c : LRUCache K V) : Nat := c.map.length

/-- Method `clear`. -/
def clear (c : LRUCache K V) : LRUCache K V := { c with map := [] }

end LRUCache

/-- One external operation on the cache, for quantifying over operation
sequences. -/
inductive CacheOp (K V : Type) where
  | get (k : K)
  | set (k : K) (v : V)
  | has (k : K)
  | clear
deriving DecidableEq, Repr

/-- Apply one exported cache operation to the cache state (`has` only
reads; `get` may reorder entries; `set` and `clear` mutate). -/
def applyOp {K V : Type} [DecidableEq K] (c : LRUCache K V) :
    CacheOp K V → LRUCache K V
  | .get k => (c.get k).2
  | .set k v => c.set k v
  | .has _ => c
  | .clear => c.clear

/-- Run a sequence of cache operations from a starting state. -/
def runOps {K V : Type} [DecidableEq K] (c : LRUCache K V)
    (ops : List (CacheOp K V)) : LRUCache K V :=
  ops.foldl applyOp c

/-! ## Cache capacity heuristic (src/lib/dataService.ts, lines 88-94) -/

/-- Function `getCacheSize`: with a `navigator.deviceMemory` hint of
`mem` (GB) the capacity is 10 when `mem ≤ 2` and 25 otherwise; when the
hint is absent the capacity is 25 (the source also defaults an
`undefined` hint to 4 GB, which again yields 25, so both hint-less paths
collapse to `none ↦ 25`). -/
def getCacheSize (deviceMemory : Option ℚ) : Nat :=
  match deviceMemory with
  | some mem => if mem ≤ 2 then 10 else 25
  | none => 25

/-! ## Geometry utilities (Utils.douglasPeucker and friends)

Coordinates are pairs of rationals.  The source computes
`Math.sqrt(dx*dx + dy*dy)` for the perpendicular distance and only ever
compares distances with each other and with a nonnegative tolerance;
the embedding therefore works with the squared distance and a squared
tolerance, which produces the same comparisons because squaring is
strictly monotone on nonnegative reals. -/

/-- Squared distance between two points (the square of the
`Math.sqrt(dx*dx + dy*dy)` the source computes for a degenerate
segment). -/
def pointDistanceSq (p q : ℚ × ℚ) : ℚ :=
  (p.1 - q.1) * (p.1 - q.1) + (p.2 - q.2) * (p.2 - q.2)

/-- Square of `Utils.perpendicularDistance(point, lineStart, lineEnd)`:
project the point on the segment, clamping the parameter into [0, 1],
with the degenerate-segment guard `param = -1` when `lenSq` is zero,
then return the (squared) distance to the projection. -/
def perpendicularDistanceSq (point lineStart lineEnd : ℚ × ℚ) : ℚ :=
  let x := point.1
  let y := point.2
  let x₁ := lineStart.1
  let y₁ := lineStart.2
  let x₂ := lineEnd.1
  let y₂ := lineEnd.2
  let A := x - x₁
  let B := y - y₁
  let C := x₂ - x₁
  let D := y₂ - y₁
  let dot := A * C + B * D
  let lenSq := C * C + D * D
  let param := if lenSq ≠ 0 then dot / lenSq else -1
  let xx := if param < 0 then x₁ else if param > 1 then x₂ else x₁ + param * C
  let yy := if param < 0 then y₁ else if param > 1 then y₂ else y₁ + param * D
  let dx := x - xx
  let dy := y - yy
  dx * dx + dy * dy

/-- The quantity `this.perpendicularDistance(points[i], points[0],
points[end])` computed in the scan of `Utils.douglasPeucker` (squared,
by the convention above). -/
def dpDistAt (points : List (ℚ × ℚ)) (i : Nat) : ℚ :=
  perpendicularDistanceSq (points.getD i (0, 0)) (points.getD 0 (0, 0))
    (points.getD (points.length - 1) (0, 0))

/-- One iteration of the scan `for (let i = 1; i < end; i++)` in
`Utils.douglasPeucker`: the accumulator `(maxDist, maxIndex)` is updated
only on a strict increase of the distance, exactly as in the source, so
on ties the first index encountered wins.  The loop counter is rendered
as `i = j + 1` with `j` drawn from `0, ..., (length - 1) - 2`, which
enumerates exactly `1 ≤ i < end`. -/
def dpStep (points : List (ℚ × ℚ)) (acc : ℚ × Nat) (j : Nat) : ℚ × Nat :=
  let i := j + 1
  let dist := dpDistAt points i
  if dist > acc.1 then (dist, i) else acc

/-- The completed scan of `Utils.douglasPeucker`: the maximum (squared)
perpendicular distance of an interior point from the segment joining the
first and last points, together with the first index attaining it;
`(0, 0)` if every interior distance is zero (or there is no interior). -/
def dpFindMax (points : List (ℚ × ℚ)) : ℚ × Nat :=
  (List.range (points.length - 1 - 1)).foldl (dpStep points) (0, 0)

/-- Recursion of `Utils.douglasPeucker` with an explicit fuel
parameter.  The fuel only bounds the recursion depth (the source
recursion is not structural; with a negative tolerance and an
all-collinear interior it would not even terminate); with
`fuel ≥ points.length` and a nonnegative tolerance the fuel is never
exhausted (`douglasPeuckerF_fuel_irrelevant` below).  Branches follow
the source: length at most 2 is returned as is; if the maximum
distance exceeds the tolerance, recurse on `slice(0, maxIndex + 1)`
and `slice(maxIndex)` and join the halves dropping the duplicated
split point; otherwise keep only the two endpoints. -/
def douglasPeuckerF : Nat → List (ℚ × ℚ) → ℚ → List (ℚ × ℚ)
  | 0, points, _ => points
  | fuel + 1, points, toleranceSq =>
    if points.length ≤ 2 then points
    else
      let e := points.length - 1
      let m := dpFindMax points
      if m.1 > toleranceSq then
        let left := douglasPeuckerF fuel (points.take (m.2 + 1)) toleranceSq
        let right := douglasPeuckerF fuel (points.drop m.2) toleranceSq
        left.dropLast ++ right
      else
        [points.getD 0 (0, 0), points.getD e (0, 0)]

/-- Function `Utils.douglasPeucker(points, tolerance)` (with the squared
tolerance convention): run the recursion with enough fuel. -/
def douglasPeucker (points : List (ℚ × ℚ)) (toleranceSq : ℚ) : List (ℚ × ℚ) :=
  douglasPeuckerF points.length points toleranceSq

/-- JavaScript `Math.round` (round half towards positive infinity) on a
rational. -/
def jsRound (q : ℚ) : ℤ := ⌊q + 1 / 2⌋

/-- Rounding of one coordinate to `precision` decimal places:
`Math.round(c * 10^precision) / 10^precision`. -/
def roundCoord (precision : Nat) (c : ℚ) : ℚ :=
  (jsRound (c * 10 ^ precision) : ℚ) / 10 ^ precision

/-- The branch of `Utils.simplifyCoordinates` that handles an array of
coordinate pairs (a line or ring): apply Douglas-Peucker, then round
every coordinate of every surviving point.  The surrounding branches of
the source only recurse through nested geometry until they reach this
case (or round a single bare pair), so this is the point-removal pass
the claims are about. -/
def simplifyLine (coords : List (ℚ × ℚ)) (precision : Nat) (toleranceSq : ℚ) :
    List (ℚ × ℚ) :=
  (douglasPeucker coords toleranceSq).map
    (fun c => (roundCoord precision c.1, roundCoord precision c.2))

/-! ## DataService.loadPeriod as a state machine
(src/lib/dataService.ts, lines 105-263)

The `async` method `loadPeriod` has exactly one suspension point, the
`await this.fetchData(...)`; everything between two suspension points is
synchronous and runs atomically.  The model makes the state explicit and
drives it with events: a synchronous `loadPeriod(index)` call, the
resolution of the in-flight fetch attempt with a dataset, and the
rejection of the in-flight fetch attempt.  A period is identified by
its index; the cache key `PERIODS[index].file` is modelled by the index
itself, which is faithful because the 52 file names in
`periodsConfig.ts` are pairwise distinct.  Datasets are opaque tokens.
`schedulePreload` registers an idle callback; the model records the
registration (field `idleScheduled`) and the modelled traces end before
any idle callback runs, so the callback body is not part of the
transition system. -/

/-- Identifier of one outer `loadPeriod` promise. -/
abbrev CallId := Nat

/-- Opaque dataset token (the converted GeoJSON value). -/
abbrev Dataset := Nat

/-- Which channel the current `fetchData` attempt is using. -/
inductive FetchChannel where
  | worker
  | mainThread
deriving DecidableEq, Repr

/-- Errors a `loadPeriod` caller could observe.  `network` is the
rejection of `fetchOnMainThread`; `workerUnavailable` mirrors the
`Worker not available` rejection inside `fetchViaWorker`, which is
created only when `getWorker()` returned null — a path `fetchData`
never takes, having checked the worker first, so no transition of the
model (and no execution of the source) produces it. -/
inductive LoadError where
  | network
  | workerUnavailable
deriving DecidableEq, Repr

deriving instance DecidableEq for Except

/-- State of one `DataService` instance, restricted to the fields the
`loadPeriod` path touches.  `inFlight` is the suspended continuation of
the single possible in-progress `loadPeriod` execution: which call it
belongs to, which period index it is fetching, and which channel the
current attempt uses.  `results` collects the settlements of the outer
promises in order.  `fetchLog` records every fetch attempt started. -/
structure DSState where
  cache : LRUCache Nat Dataset
  pendingIndex : Option Nat
  isLoading : Bool
  workerFailed : Bool
  workerUp : Bool
  inFlight : Option (CallId × Nat × FetchChannel)
  idleScheduled : Option Nat
  results : List (CallId × Except LoadError (Option Dataset))
  fetchLog : List (Nat × FetchChannel)
deriving DecidableEq, Repr

/-- The `DataService` constructor: empty cache with the heuristic
capacity, no worker yet, nothing loading. -/
def initState (deviceMemory : Option ℚ) : DSState :=
  { cache := LRUCache.empty Nat Dataset (getCacheSize deviceMemory)
    pendingIndex := none
    isLoading := false
    workerFailed := false
    workerUp := false
    inFlight := none
    idleScheduled := none
    results := []
    fetchLog := [] }

/-- Method `getWorker` (lines 126-164): if the worker already failed,
return null; if a worker exists, return it; otherwise construct one —
construction succeeds or throws according to the environment flag
`workerCreationOk`, and on a throw the catch block sets `workerFailed`
and returns null. -/
def getWorker (workerCreationOk : Bool) (s : DSState) : Option Unit × DSState :=
  if s.workerFailed then (none, s)
  else if s.workerUp then (some (), s)
  else if workerCreationOk then (some (), { s with workerUp := true })
  else (none, { s with workerFailed := true })

/-- Start of `fetchData(file)` (lines 206-217) up to its first await:
query `getWorker`, pick the worker channel if it returned one and the
main-thread channel otherwise, record the attempt and suspend the
calling `loadPeriod` on it. -/
def fetchDataStart (workerCreationOk : Bool) (c : CallId) (target : Nat)
    (s : DSState) : DSState :=
  let w := getWorker workerCreationOk s
  let ch := if w.1.isSome then FetchChannel.worker else FetchChannel.mainThread
  { w.2 with
    inFlight := some (c, target, ch)
    fetchLog := w.2.fetchLog ++ [(target, ch)] }

/-- One iteration of the `while (this.pendingIndex !== null)` body of
`loadPeriod` (lines 240-258), entered with the target index already
consumed (`pendingIndex` reset to null).  On a cache hit no await
happens, so `pendingIndex` is still null at the check on line 253 and
the method returns the cached dataset (scheduling the preload and
resetting `isLoading` in the `finally`); the hit goes through
`cache.get` and therefore promotes the entry.  On a miss the method
suspends on `fetchData`. -/
def loopIter (workerCreationOk : Bool) (c : CallId) (target : Nat)
    (s : DSState) : DSState :=
  if s.cache.has target then
    let r := s.cache.get target
    { s with
      cache := r.2
      results := s.results ++ [(c, Except.ok (some (r.1.getD 0)))]
      isLoading := false
      idleScheduled := some target }
  else
    fetchDataStart workerCreationOk c target s

/-- A synchronous `loadPeriod(index)` call (lines 229-238): store the
index in `pendingIndex`; if a load is in progress resolve immediately
with null; otherwise set `isLoading` and enter the loop, whose first
iteration consumes the just-stored index. -/
def stepCall (workerCreationOk : Bool) (c : CallId) (index : Nat)
    (s : DSState) : DSState :=
  let s₂ := { s with pendingIndex := some index }
  if s₂.isLoading then
    { s₂ with results := s₂.results ++ [(c, Except.ok none)] }
  else
    loopIter workerCreationOk c index
      { s₂ with isLoading := true, pendingIndex := none }

/-- Resolution of the in-flight fetch attempt with dataset `d` (the
`await` on line 248 returns): store the dataset in the cache; if no
newer index arrived meanwhile, schedule the preload and resolve the
outer promise with the dataset (resetting `isLoading` in the
`finally`); otherwise run the next loop iteration for the newer
index. -/
def stepResolve (workerCreationOk : Bool) (d : Dataset) (s : DSState) : DSState :=
  match s.inFlight with
  | none => s
  | some (c, target, _) =>
    let s₂ := { s with inFlight := none, cache := s.cache.set target d }
    match s₂.pendingIndex with
    | none =>
      { s₂ with
        results := s₂.results ++ [(c, Except.ok (some d))]
        isLoading := false
        idleScheduled := some target }
    | some next => loopIter workerCreationOk c next { s₂ with pendingIndex := none }

/-- Rejection of the in-flight fetch attempt.  Per `fetchData` (lines
206-217): a failure of the worker attempt is caught and the same
request is retried on the main thread, while a failure of the
main-thread attempt propagates out of `fetchData`, so the `await` in
`loadPeriod` throws, the `finally` resets `isLoading`, and the outer
promise rejects with the network error.  Nothing else is touched: in
particular the cache and `pendingIndex` keep their values. -/
def stepFail (s : DSState) : DSState :=
  match s.inFlight with
  | none => s
  | some (c, target, ch) =>
    match ch with
    | FetchChannel.worker =>
      { s with
        inFlight := some (c, target, FetchChannel.mainThread)
        fetchLog := s.fetchLog ++ [(target, FetchChannel.mainThread)] }
    | FetchChannel.mainThread =>
      { s with
        inFlight := none
        results := s.results ++ [(c, Except.error LoadError.network)]
        isLoading := false }

/-- Events driving the `DataService` model. -/
inductive DSEvent where
  | call (c : CallId) (index : Nat)
  | fetchResolve (d : Dataset)
  | fetchFail
deriving DecidableEq, Repr

/-- Apply one event. -/
def stepEvent (workerCreationOk : Bool) (s : DSState) : DSEvent → DSState
  | .call c i => stepCall workerCreationOk c i s
  | .fetchResolve d => stepResolve workerCreationOk d s
  | .fetchFail => stepFail s

/-- Run a sequence of events. -/
def runEvents (workerCreationOk : Bool) (s : DSState) (evs : List DSEvent) :
    DSState :=
  evs.foldl (stepEvent workerCreationOk) s

/-! ## The worker request/response correlation table
(src/lib/dataService.ts, lines 110-121 and 167-192)

`fetchViaWorker` allocates a fresh id from the monotonic counter,
stores resolve/reject callbacks for it in `pendingRequests`, arms a
30-second timer and posts the request.  The `onmessage` handler looks
the response id up in the table, and only if it is present removes the
entry and settles the corresponding promise; the stored callbacks also
disarm the timer.  The timer callback removes the entry and rejects
the promise directly.  The `onerror` handler marks the worker failed
and rejects everything pending.  Settling an already settled promise is
a no-op, as for JavaScript promises. -/

/-- The 30000 ms timeout `fetchViaWorker` arms for every request. -/
def workerTimeoutMs : Nat := 30000

/-- Reasons a `fetchViaWorker` promise can reject. -/
inductive WError where
  | remote (code : Nat)
  | workerCrash
  | timeout
deriving DecidableEq, Repr

/-- Settlement state of one `fetchViaWorker` promise. -/
inductive PromiseState where
  | pending
  | resolved (d : Dataset)
  | rejected (e : WError)
deriving DecidableEq, Repr

/-- Settle the promise with the given id: a pending entry with that id
takes the new state, an already settled entry is left alone. -/
def settlePromise (id : Nat) (r : PromiseState)
    (l : List (Nat × PromiseState)) : List (Nat × PromiseState) :=
  l.map (fun kv => if kv.1 = id ∧ kv.2 = PromiseState.pending then (id, r) else kv)

/-- State of the worker channel: the monotonic `requestId` counter, the
ids present in the `pendingRequests` correlation Map (insertion order),
the promise returned by each `fetchViaWorker` call (keyed by its
request id), the ids whose 30 s timer is still armed, the posted
`WorkerRequest` messages `(id, file)`, and the `workerFailed` flag the
`onerror` handler sets. -/
structure WorkerState where
  requestId : Nat
  pendingRequests : List Nat
  promises : List (Nat × PromiseState)
  timers : List Nat
  sentMessages : List (Nat × Nat)
  workerFailed : Bool
deriving DecidableEq, Repr

/-- Fresh worker-channel state. -/
def initWorkerState : WorkerState :=
  { requestId := 0
    pendingRequests := []
    promises := []
    timers := []
    sentMessages := []
    workerFailed := false }

/-- Method `fetchViaWorker(file)` (lines 167-192), assuming the worker
exists: increment the counter, arm the timer, register the pending
promise in the correlation table and post `{id, file}`. -/
def fetchViaWorker (file : Nat) (s : WorkerState) : WorkerState :=
  let id := s.requestId + 1
  { s with
    requestId := id
    timers := s.timers ++ [id]
    pendingRequests := s.pendingRequests ++ [id]
    promises := s.promises ++ [(id, PromiseState.pending)]
    sentMessages := s.sentMessages ++ [(id, file)] }

/-- A `WorkerResponse` message: the id plus an optional converted
dataset and an optional error (the source declares both fields
optional). -/
structure WorkerResponse where
  id : Nat
  geojson : Option Dataset
  error : Option Nat
deriving DecidableEq, Repr

/-- The `worker.onmessage` handler (lines 134-145): look the id up in
the correlation table; if absent do nothing.  If present, first delete
the entry, then reject on an error, else resolve on a dataset (a
response with neither settles nothing — and then also leaves the timer
armed, since only the stored callbacks disarm it). -/
def onmessage (r : WorkerResponse) (s : WorkerState) : WorkerState :=
  if r.id ∈ s.pendingRequests then
    let s₂ := { s with pendingRequests := s.pendingRequests.erase r.id }
    match r.error with
    | some e =>
      { s₂ with
        timers := s₂.timers.erase r.id
        promises := settlePromise r.id (PromiseState.rejected (WError.remote e)) s₂.promises }
    | none =>
      match r.geojson with
      | some d =>
        { s₂ with
          timers := s₂.timers.erase r.id
          promises := settlePromise r.id (PromiseState.resolved d) s₂.promises }
      | none => s₂
  else s

/-- The timer callback armed in `fetchViaWorker` (lines 176-179), which
can only run while still armed: disarm, remove the id from the
correlation table and reject the promise (directly, not through the
table entry). -/
def timeoutFire (id : Nat) (s : WorkerState) : WorkerState :=
  if id ∈ s.timers then
    { s with
      timers := s.timers.erase id
      pendingRequests := s.pendingRequests.erase id
      promises := settlePromise id (PromiseState.rejected WError.timeout) s.promises }
  else s

/-- The `worker.onerror` handler (lines 147-156): set `workerFailed`,
reject every pending request through its stored callback (which
disarms its timer) and empty the table. -/
def onerror (s : WorkerState) : WorkerState :=
  { s with
    workerFailed := true
    promises := s.pendingRequests.foldl
      (fun ps id => settlePromise id (PromiseState.rejected WError.workerCrash) ps)
      s.promises
    pendingRequests := []
    timers := s.timers.filter (fun id => ¬ id ∈ s.pendingRequests) }

/-! ## Concrete scenarios named by the claims -/

/-- The LRU scenario: capacity 3, `set a, set b, set c, get a, set d`
with `a, b, c, d` rendered as the keys `0, 1, 2, 3`. -/
def c2Final : LRUCache Nat Nat :=
  runOps (LRUCache.empty Nat Nat 3)
    [CacheOp.set 0 100, CacheOp.set 1 101, CacheOp.set 2 102,
     CacheOp.get 0, CacheOp.set 3 103]

/-- The coalescing scenario: `loadPeriod(1)`, `loadPeriod(2)`,
`loadPeriod(3)` issued synchronously (calls 10, 11, 12), then the two
fetches that actually start resolve in order with the datasets 500
(fetched for index 1) and 501 (fetched for index 3). -/
def c1Final : DSState :=
  runEvents true (initState none)
    [DSEvent.call 10 1, DSEvent.call 11 2, DSEvent.call 12 3,
     DSEvent.fetchResolve 500, DSEvent.fetchResolve 501]

/-- An error scenario: worker creation fails, `loadPeriod(1)` (call 10)
starts a main-thread fetch, `loadPeriod(2)` (call 11) arrives mid-
flight, the fetch for index 1 resolves with dataset 500 (which the loop
caches before moving on to index 2), and the fetch for index 2 then
fails. -/
def c7Final : DSState :=
  runEvents false (initState none)
    [DSEvent.call 10 1, DSEvent.call 11 2,
     DSEvent.fetchResolve 500, DSEvent.fetchFail]

/-! ### Helper lemmas about the association-list primitives -/

theorem findVal_isSome_iff {K V : Type} [DecidableEq K] (k : K) :
    ∀ l : List (K × V), (findVal k l).isSome = true ↔ k ∈ l.map Prod.fst := by
  intro l
  induction l with
  | nil => simp [findVal]
  | cons hd tl ih =>
    obtain ⟨k₂, v⟩ := hd
    by_cases h : k₂ = k
    · subst h
      simp [findVal]
    · simp only [findVal, h, if_false, List.map_cons, List.mem_cons]
      rw [ih]
      constructor
      · exact fun hm => Or.inr hm
      · rintro (hk | hm)
        · exact absurd hk.symm h
        · exact hm

theorem eraseKey_length_of_found {K V : Type} [DecidableEq K] (k : K) :
    ∀ l : List (K × V), (findVal k l).isSome = true →
      (eraseKey k l).length + 1 = l.length := by
  intro l
  induction l with
  | nil => simp [findVal]
  | cons hd tl ih =>
    obtain ⟨k₂, v⟩ := hd
    by_cases h : k₂ = k
    · simp [eraseKey, h]
    · intro hmem
      simp only [findVal, h, if_false] at hmem
      have h₂ := ih hmem
      simp only [eraseKey, h, if_false, List.length_cons]
      omega

theorem eraseKey_length_le {K V : Type} [DecidableEq K] (k : K) :
    ∀ l : List (K × V), (eraseKey k l).length ≤ l.length := by
  intro l
  induction l with
  | nil => simp [eraseKey]
  | cons hd tl ih =>
    obtain ⟨k₂, v⟩ := hd
    by_cases h : k₂ = k
    · simp [eraseKey, h]
    · simp only [eraseKey, h, if_false, List.length_cons]
      omega

/-- Size is preserved by `get` (a hit removes one entry and appends one;
a miss changes nothing). -/
theorem get_size {K V : Type} [DecidableEq K] (c : LRUCache K V) (k : K) :
    ((c.get k).2).size = c.size := by
  unfold LRUCache.get
  cases hfv : findVal k c.map with
  | none => rfl
  | some v =>
    have h₂ : (findVal k c.map).isSome = true := by simp [hfv]
    have h₃ := eraseKey_length_of_found k c.map h₂
    simp [LRUCache.size, h₃.symm]

/-- Size bound is preserved by `set` for any positive capacity. -/
theorem set_size_le {K V : Type} [DecidableEq K] (c : LRUCache K V)
    (k : K) (v : V) (hcap : 1 ≤ c.maxSize) (hle : c.size ≤ c.maxSize) :
    (c.set k v).size ≤ c.maxSize := by
  unfold LRUCache.set
  by_cases hhas : c.has k
  · have h₂ := eraseKey_length_of_found k c.map hhas
    simp only [hhas, if_true, LRUCache.size, List.length_append, List.length_cons,
      List.length_nil] at *
    omega
  · by_cases hfull : c.maxSize ≤ c.map.length
    · have htail : c.map.tail.length = c.map.length - 1 := by
        cases c.map <;> simp
      simp only [hhas, Bool.false_eq_true, if_false, hfull, if_true, LRUCache.size,
        List.length_append, List.length_cons, List.length_nil]
      simp only [LRUCache.size] at hle
      omega
    · simp only [hhas, Bool.false_eq_true, if_false, hfull, LRUCache.size,
        List.length_append, List.length_cons, List.length_nil]
      omega

/-- Size bound is preserved by any single cache operation. -/
theorem applyOp_size_le {K V : Type} [DecidableEq K] (c : LRUCache K V)
    (op : CacheOp K V) (hcap : 1 ≤ c.maxSize) (hle : c.size ≤ c.maxSize) :
    (applyOp c op).size ≤ c.maxSize := by
  cases op with
  | get k => simpa [applyOp, get_size] using hle
  | set k v => exact set_size_le c k v hcap hle
  | has k => exact hle
  | clear => simp [applyOp, LRUCache.clear, LRUCache.size]

theorem applyOp_maxSize {K V : Type} [DecidableEq K] (c : LRUCache K V)
    (op : CacheOp K V) : (applyOp c op).maxSize = c.maxSize := by
  cases op with
  | get k =>
    simp only [applyOp]
    unfold LRUCache.get
    cases findVal k c.map <;> rfl
  | set k v =>
    simp only [applyOp]
    unfold LRUCache.set
    by_cases hhas : c.has k <;> by_cases hfull : c.maxSize ≤ c.map.length <;>
      simp [hhas, hfull]
  | has k => rfl
  | clear => rfl

theorem runOps_size_le {K V : Type} [DecidableEq K] (c : LRUCache K V)
    (ops : List (CacheOp K V)) (hcap : 1 ≤ c.maxSize) (hle : c.size ≤ c.maxSize) :
    (runOps c ops).size ≤ (runOps c ops).maxSize := by
  induction ops generalizing c with
  | nil => simpa [runOps]
  | cons op rest ih =>
    have h₂ := applyOp_size_le c op hcap hle
    have h₃ := applyOp_maxSize c op
    simpa [runOps] using ih (applyOp c op) (h₃ ▸ hcap) (h₃ ▸ h₂)

theorem runOps_maxSize {K V : Type} [DecidableEq K] (c : LRUCache K V)
    (ops : List (CacheOp K V)) : (runOps c ops).maxSize = c.maxSize := by
  induction ops generalizing c with
  | nil => rfl
  | cons op rest ih =>
    have h₂ : runOps c (op :: rest) = runOps (applyOp c op) rest := rfl
    rw [h₂, ih, applyOp_maxSize]

/-! ### Claim theorems for the LRU cache -/

/-- C2: `get` on a present key returns its value and promotes the entry
to the most-recently-used (last) position, leaving the other entries in
order; `set` on an existing key overwrites and promotes the same way;
`set` of a new key at capacity drops the structurally first
(least-recently-used) entry and appends the new one; and concretely,
with capacity 3, after `set a, set b, set c, get a, set d` the key `b`
is absent and exactly `a, c, d` are present (in recency order
`c, a, d`). -/
theorem claim_C2_lru_promotion_eviction :
    (∀ (K V : Type) [DecidableEq K] (c : LRUCache K V) (k : K) (v : V),
      findVal k c.map = some v →
      c.get k = (some v, { c with map := eraseKey k c.map ++ [(k, v)] })) ∧
    (∀ (K V : Type) [DecidableEq K] (c : LRUCache K V) (k : K) (v : V),
      c.has k = true → c.set k v = { c with map := eraseKey k c.map ++ [(k, v)] }) ∧
    (∀ (K V : Type) [DecidableEq K] (c : LRUCache K V) (k : K) (v : V),
      c.has k = false → c.maxSize ≤ c.size →
      c.set k v = { c with map := c.map.tail ++ [(k, v)] }) ∧
    (c2Final.has 1 = false ∧ c2Final.has 0 = true ∧ c2Final.has 2 = true ∧
      c2Final.has 3 = true ∧ c2Final.map.map Prod.fst = [2, 0, 3]) := by
  refine ⟨?_, ?_, ?_, by decide⟩
  · intro K V inst c k v h
    unfold LRUCache.get
    rw [h]
  · intro K V inst c k v h
    unfold LRUCache.set
    rw [if_pos h]
  · intro K V inst c k v h h₂
    unfold LRUCache.set
    unfold LRUCache.size at h₂
    rw [if_neg (by simp [h]), if_pos h₂]

/-- Witness for C2: the three hypothesised conjuncts applied at
concrete caches. -/
theorem claim_C2_lru_promotion_eviction_witness :
    LRUCache.get (⟨[(5, 7)], 3⟩ : LRUCache Nat Nat) 5 =
      (some 7, ⟨eraseKey 5 [(5, 7)] ++ [(5, 7)], 3⟩) ∧
    LRUCache.set (⟨[(5, 7)], 3⟩ : LRUCache Nat Nat) 5 9 =
      ⟨eraseKey 5 [(5, 7)] ++ [(5, 9)], 3⟩ ∧
    LRUCache.set (⟨[(1, 2), (3, 4)], 2⟩ : LRUCache Nat Nat) 8 9 =
      ⟨List.tail [(1, 2), (3, 4)] ++ [(8, 9)], 2⟩ :=
  ⟨claim_C2_lru_promotion_eviction.1 Nat Nat ⟨[(5, 7)], 3⟩ 5 7 rfl,
   claim_C2_lru_promotion_eviction.2.1 Nat Nat ⟨[(5, 7)], 3⟩ 5 9 (by decide),
   claim_C2_lru_promotion_eviction.2.2.1 Nat Nat ⟨[(1, 2), (3, 4)], 2⟩ 8 9
     (by decide) (by decide)⟩

/-- C3: every capacity the `DataService` constructor can pick lies in
the interval [10, 35], and for every positive capacity the number of
entries never exceeds the capacity: it holds in every state reachable
from the empty cache by any sequence of get/set/has/clear operations,
and it is preserved by every single operation from every state
satisfying it. -/
theorem claim_C3_capacity_invariant :
    (∀ dm : Option ℚ, 10 ≤ getCacheSize dm ∧ getCacheSize dm ≤ 35) ∧
    (∀ (K V : Type) [DecidableEq K] (C : Nat), 1 ≤ C →
      (∀ ops : List (CacheOp K V), (runOps (LRUCache.empty K V C) ops).size ≤ C) ∧
      (∀ (c : LRUCache K V) (op : CacheOp K V), c.maxSize = C → c.size ≤ C →
        (applyOp c op).size ≤ C)) := by
  constructor
  · intro dm
    cases dm with
    | none => simp [getCacheSize]
    | some m =>
      by_cases h : m ≤ 2 <;> simp [getCacheSize, h]
  · intro K V inst C hC
    constructor
    · intro ops
      have h := runOps_size_le (LRUCache.empty K V C) ops (by simpa [LRUCache.empty])
        (by simp [LRUCache.size, LRUCache.empty])
      rwa [runOps_maxSize] at h
    · intro c op hmax hsize
      have h := applyOp_size_le c op (by omega) (by omega)
      omega

/-- Witness for C3: the constructor fact at the hint-less default, and
both invariant conjuncts at capacity 10. -/
theorem claim_C3_capacity_invariant_witness :
    (10 ≤ getCacheSize none ∧ getCacheSize none ≤ 35) ∧
    (runOps (LRUCache.empty Nat Nat 10) [CacheOp.set 1 2, CacheOp.get 1]).size ≤ 10 ∧
    (applyOp (⟨[(1, 2)], 10⟩ : LRUCache Nat Nat) (CacheOp.set 3 4)).size ≤ 10 :=
  ⟨claim_C3_capacity_invariant.1 none,
   (claim_C3_capacity_invariant.2 Nat Nat 10 (by decide)).1 _,
   (claim_C3_capacity_invariant.2 Nat Nat 10 (by decide)).2 _ _ rfl (by decide)⟩

/-! ### Helper lemmas for the geometry pass -/

theorem perpendicularDistanceSq_nonneg (p a b : ℚ × ℚ) :
    0 ≤ perpendicularDistanceSq p a b := by
  unfold perpendicularDistanceSq
  exact add_nonneg (mul_self_nonneg _) (mul_self_nonneg _)

theorem dpDistAt_nonneg (points : List (ℚ × ℚ)) (i : Nat) :
    0 ≤ dpDistAt points i :=
  perpendicularDistanceSq_nonneg _ _ _

/-- Invariant of the `maxDist`/`maxIndex` scan after `k` iterations: the
accumulator dominates the distances of the scanned indices, and either
no update ever fired (all scanned distances were zero and the
accumulator is still `(0, 0)`) or it holds the distance of the first
scanned index attaining the running maximum. -/
theorem dpScan_spec (points : List (ℚ × ℚ)) : ∀ k : Nat,
    0 ≤ ((List.range k).foldl (dpStep points) (0, 0)).1 ∧
    (∀ j, 1 ≤ j → j ≤ k →
      dpDistAt points j ≤ ((List.range k).foldl (dpStep points) (0, 0)).1) ∧
    ((List.range k).foldl (dpStep points) (0, 0) = (0, 0) ∨
      (0 < ((List.range k).foldl (dpStep points) (0, 0)).1 ∧
        1 ≤ ((List.range k).foldl (dpStep points) (0, 0)).2 ∧
        ((List.range k).foldl (dpStep points) (0, 0)).2 ≤ k ∧
        ((List.range k).foldl (dpStep points) (0, 0)).1 =
          dpDistAt points ((List.range k).foldl (dpStep points) (0, 0)).2 ∧
        ∀ j, 1 ≤ j → j < ((List.range k).foldl (dpStep points) (0, 0)).2 →
          dpDistAt points j <
            ((List.range k).foldl (dpStep points) (0, 0)).1)) := by
  intro k
  induction k with
  | zero =>
    refine ⟨le_refl 0, ?_, Or.inl rfl⟩
    intro j h₁ h₂
    omega
  | succ k ih =>
    obtain ⟨ihnn, ihmax, ihalt⟩ := ih
    rw [List.range_succ, List.foldl_append, List.foldl_cons, List.foldl_nil]
    set F := (List.range k).foldl (dpStep points) (0, 0) with hF
    by_cases hd : dpDistAt points (k + 1) > F.1
    · have hstep : dpStep points F k = (dpDistAt points (k + 1), k + 1) := by
        unfold dpStep
        rw [if_pos hd]
      rw [hstep]
      have hpos : 0 < dpDistAt points (k + 1) := lt_of_le_of_lt ihnn hd
      refine ⟨le_of_lt hpos, ?_, Or.inr ⟨hpos, by omega, by omega, rfl, ?_⟩⟩
      · intro j h₁ h₂
        rcases Nat.lt_succ_iff_lt_or_eq.mp (Nat.lt_succ_of_le h₂) with h | h
        · exact le_of_lt (lt_of_le_of_lt (ihmax j h₁ (by omega)) hd)
        · rw [h]
      · intro j h₁ h₂
        exact lt_of_le_of_lt (ihmax j h₁ (by omega)) hd
    · have hstep : dpStep points F k = F := by
        unfold dpStep
        rw [if_neg hd]
      rw [hstep]
      refine ⟨ihnn, ?_, ?_⟩
      · intro j h₁ h₂
        rcases Nat.lt_succ_iff_lt_or_eq.mp (Nat.lt_succ_of_le h₂) with h | h
        · exact ihmax j h₁ (by omega)
        · rw [h]
          exact le_of_not_lt hd
      · rcases ihalt with h | ⟨ha, hb, hc, hd₂, he⟩
        · exact Or.inl h
        · exact Or.inr ⟨ha, hb, by omega, hd₂, he⟩

/-- Specification of `dpFindMax` for a list with at least one interior
point. -/
theorem dpFindMax_spec (points : List (ℚ × ℚ)) (h3 : 3 ≤ points.length) :
    0 ≤ (dpFindMax points).1 ∧
    (∀ j, 1 ≤ j → j < points.length - 1 →
      dpDistAt points j ≤ (dpFindMax points).1) ∧
    (dpFindMax points = (0, 0) ∨
      (0 < (dpFindMax points).1 ∧ 1 ≤ (dpFindMax points).2 ∧
        (dpFindMax points).2 < points.length - 1 ∧
        (dpFindMax points).1 = dpDistAt points (dpFindMax points).2 ∧
        ∀ j, 1 ≤ j → j < (dpFindMax points).2 →
          dpDistAt points j < (dpFindMax points).1)) := by
  have h := dpScan_spec points (points.length - 1 - 1)
  rw [show (List.range (points.length - 1 - 1)).foldl (dpStep points) (0, 0) =
    dpFindMax points from rfl] at h
  obtain ⟨hnn, hmax, halt⟩ := h
  refine ⟨hnn, ?_, ?_⟩
  · intro j h₁ h₂
    exact hmax j h₁ (by omega)
  · rcases halt with h | ⟨ha, hb, hc, hd, he⟩
    · exact Or.inl h
    · exact Or.inr ⟨ha, hb, by omega, hd, he⟩

/-- When the maximum is positive, `dpFindMax` returns genuine interior
bounds, the first attaining index, and the maximality facts. -/
theorem dpFindMax_pos_bounds (points : List (ℚ × ℚ)) (h3 : 3 ≤ points.length)
    (hpos : 0 < (dpFindMax points).1) :
    1 ≤ (dpFindMax points).2 ∧ (dpFindMax points).2 < points.length - 1 ∧
    (dpFindMax points).1 = dpDistAt points (dpFindMax points).2 ∧
    (∀ j, 1 ≤ j → j < points.length - 1 →
      dpDistAt points j ≤ (dpFindMax points).1) ∧
    (∀ j, 1 ≤ j → j < (dpFindMax points).2 →
      dpDistAt points j < (dpFindMax points).1) := by
  obtain ⟨hnn, hmax, halt⟩ := dpFindMax_spec points h3
  rcases halt with h | ⟨ha, hb, hc, hd, he⟩
  · rw [h] at hpos
    exact absurd hpos (by norm_num)
  · exact ⟨hb, hc, hd, hmax, he⟩

theorem dpFindMax_snd_lt (points : List (ℚ × ℚ)) (h3 : 3 ≤ points.length) :
    (dpFindMax points).2 < points.length - 1 := by
  obtain ⟨hnn, hmax, halt⟩ := dpFindMax_spec points h3
  rcases halt with h | ⟨ha, hb, hc, hd, he⟩
  · rw [h]
    omega
  · exact hc

theorem head?_eq_getD {α : Type} (l : List α) (h : l ≠ []) (d : α) :
    l.head? = some (l.getD 0 d) := by
  cases l with
  | nil => exact absurd rfl h
  | cons a t => rfl

theorem getLast?_eq_getD {α : Type} (l : List α) (h : l ≠ []) (d : α) :
    l.getLast? = some (l.getD (l.length - 1) d) := by
  have hlen : l.length - 1 < l.length := by
    cases l with
    | nil => exact absurd rfl h
    | cons a t => simp
  rw [List.getLast?_eq_getElem?, List.getD_eq_getElem?_getD,
    List.getElem?_eq_getElem hlen]
  rfl

theorem head?_dropLast_of_two_le {α : Type} (l : List α) (h : 2 ≤ l.length) :
    l.dropLast.head? = l.head? := by
  match l, h with
  | a :: b :: t, _ => rfl

/-- A list of length at most 2 is returned unchanged, for any fuel. -/
theorem douglasPeuckerF_short (f : Nat) (points : List (ℚ × ℚ)) (tol : ℚ)
    (h : points.length ≤ 2) : douglasPeuckerF f points tol = points := by
  cases f with
  | zero => rfl
  | succ f =>
    unfold douglasPeuckerF
    rw [if_pos h]

/-- Unfolding of the recursive branch. -/
theorem douglasPeuckerF_succ_of_gt (f : Nat) (points : List (ℚ × ℚ)) (tol : ℚ)
    (h2 : ¬ points.length ≤ 2) (hgt : (dpFindMax points).1 > tol) :
    douglasPeuckerF (f + 1) points tol =
      (douglasPeuckerF f (points.take ((dpFindMax points).2 + 1)) tol).dropLast ++
        douglasPeuckerF f (points.drop (dpFindMax points).2) tol := by
  conv_lhs => rw [douglasPeuckerF]
  simp only [h2, hgt, if_true, if_false, ite_true, ite_false]

/-- Unfolding of the all-within-tolerance branch. -/
theorem douglasPeuckerF_succ_of_le (f : Nat) (points : List (ℚ × ℚ)) (tol : ℚ)
    (h2 : ¬ points.length ≤ 2) (hle : ¬ (dpFindMax points).1 > tol) :
    douglasPeuckerF (f + 1) points tol =
      [points.getD 0 (0, 0), points.getD (points.length - 1) (0, 0)] := by
  conv_lhs => rw [douglasPeuckerF]
  simp only [h2, hle, if_true, if_false, ite_true, ite_false]

/-- The output of the recursion always keeps at least two points when
the input has at least two. -/
theorem douglasPeuckerF_two_le_length (tol : ℚ) :
    ∀ (f : Nat) (points : List (ℚ × ℚ)), 2 ≤ points.length →
      2 ≤ (douglasPeuckerF f points tol).length := by
  intro f
  induction f with
  | zero =>
    intro points h
    exact h
  | succ f ih =>
    intro points h
    by_cases h2 : points.length ≤ 2
    · rw [douglasPeuckerF_short _ _ _ h2]
      exact h
    · have h3 : 3 ≤ points.length := by omega
      by_cases hgt : (dpFindMax points).1 > tol
      · rw [douglasPeuckerF_succ_of_gt _ _ _ h2 hgt]
        have hm := dpFindMax_snd_lt points h3
        have hdrop : 2 ≤ (points.drop (dpFindMax points).2).length := by
          rw [List.length_drop]
          omega
        have h₂ := ih (points.drop (dpFindMax points).2) hdrop
        rw [List.length_append]
        omega
      · rw [douglasPeuckerF_succ_of_le _ _ _ h2 hgt]
        simp

theorem douglasPeuckerF_ne_nil (tol : ℚ) (f : Nat) (points : List (ℚ × ℚ))
    (h : points ≠ []) : douglasPeuckerF f points tol ≠ [] := by
  by_cases h2 : points.length ≤ 2
  · rw [douglasPeuckerF_short _ _ _ h2]
    exact h
  · have h₂ := douglasPeuckerF_two_le_length tol f points (by omega)
    intro hnil
    rw [hnil] at h₂
    simp at h₂

/-- The first point of the input is the first point of the output, for
any fuel and any tolerance. -/
theorem douglasPeuckerF_head? (tol : ℚ) :
    ∀ (f : Nat) (points : List (ℚ × ℚ)),
      (douglasPeuckerF f points tol).head? = points.head? := by
  intro f
  induction f with
  | zero =>
    intro points
    rfl
  | succ f ih =>
    intro points
    by_cases h2 : points.length ≤ 2
    · rw [douglasPeuckerF_short _ _ _ h2]
    · have h3 : 3 ≤ points.length := by omega
      have hne : points ≠ [] := by
        intro hnil
        rw [hnil] at h3
        simp at h3
      by_cases hgt : (dpFindMax points).1 > tol
      · rw [douglasPeuckerF_succ_of_gt _ _ _ h2 hgt]
        by_cases hm : (dpFindMax points).2 = 0
        · have htake : (points.take ((dpFindMax points).2 + 1)).length ≤ 2 := by
            rw [List.length_take]
            omega
          rw [douglasPeuckerF_short _ _ _ htake, hm]
          have h₁ : (points.take 1).dropLast = [] := by
            cases points with
            | nil => rfl
            | cons a t => simp [List.take]
          rw [h₁, List.nil_append, List.drop_zero]
          exact ih points
        · have hm1 : 1 ≤ (dpFindMax points).2 := by omega
          have htake2 : 2 ≤ (points.take ((dpFindMax points).2 + 1)).length := by
            rw [List.length_take]
            have := dpFindMax_snd_lt points h3
            omega
          have hout2 := douglasPeuckerF_two_le_length tol f _ htake2
          have hdl : (douglasPeuckerF f (points.take ((dpFindMax points).2 + 1)) tol).dropLast ≠ [] := by
            intro hnil
            have h₄ := congrArg List.length hnil
            rw [List.length_dropLast] at h₄
            simp at h₄
            omega
          rw [List.head?_append_of_ne_nil _ hdl,
            head?_dropLast_of_two_le _ hout2, ih, List.head?_take]
          simp
      · rw [douglasPeuckerF_succ_of_le _ _ _ h2 hgt,
          head?_eq_getD points hne (0, 0)]
        rfl

/-- The last point of the input is the last point of the output, for
any fuel and any tolerance. -/
theorem douglasPeuckerF_getLast? (tol : ℚ) :
    ∀ (f : Nat) (points : List (ℚ × ℚ)),
      (douglasPeuckerF f points tol).getLast? = points.getLast? := by
  intro f
  induction f with
  | zero =>
    intro points
    rfl
  | succ f ih =>
    intro points
    by_cases h2 : points.length ≤ 2
    · rw [douglasPeuckerF_short _ _ _ h2]
    · have h3 : 3 ≤ points.length := by omega
      have hne : points ≠ [] := by
        intro hnil
        rw [hnil] at h3
        simp at h3
      by_cases hgt : (dpFindMax points).1 > tol
      · rw [douglasPeuckerF_succ_of_gt _ _ _ h2 hgt]
        have hmlt := dpFindMax_snd_lt points h3
        have hdropne : points.drop (dpFindMax points).2 ≠ [] := by
          intro hnil
          have h₄ := congrArg List.length hnil
          rw [List.length_drop] at h₄
          simp at h₄
          omega
        have hrne := douglasPeuckerF_ne_nil tol f _ hdropne
        rw [List.getLast?_append_of_ne_nil _ hrne, ih, List.getLast?_drop]
        rw [if_neg (by omega)]
      · rw [douglasPeuckerF_succ_of_le _ _ _ h2 hgt,
          getLast?_eq_getD points hne (0, 0)]
        rfl

/-- With a nonnegative tolerance the fuel is irrelevant as soon as it
covers the length of the list: the recursion always descends to
strictly shorter sublists (the split index is a genuine interior index
because the maximum distance is then strictly positive). -/
theorem douglasPeuckerF_congrFuel (tol : ℚ) (htol : 0 ≤ tol) :
    ∀ (n f₁ f₂ : Nat) (points : List (ℚ × ℚ)), points.length ≤ n →
      points.length ≤ f₁ → points.length ≤ f₂ →
      douglasPeuckerF f₁ points tol = douglasPeuckerF f₂ points tol := by
  intro n
  induction n with
  | zero =>
    intro f₁ f₂ points hn h₁ h₂
    have h0 : points.length ≤ 2 := by omega
    rw [douglasPeuckerF_short _ _ _ h0, douglasPeuckerF_short _ _ _ h0]
  | succ n ih =>
    intro f₁ f₂ points hn h₁ h₂
    by_cases h2 : points.length ≤ 2
    · rw [douglasPeuckerF_short _ _ _ h2, douglasPeuckerF_short _ _ _ h2]
    · have h3 : 3 ≤ points.length := by omega
      obtain ⟨g₁, rfl⟩ : ∃ g, f₁ = g + 1 := ⟨f₁ - 1, by omega⟩
      obtain ⟨g₂, rfl⟩ : ∃ g, f₂ = g + 1 := ⟨f₂ - 1, by omega⟩
      by_cases hgt : (dpFindMax points).1 > tol
      · rw [douglasPeuckerF_succ_of_gt _ _ _ h2 hgt,
          douglasPeuckerF_succ_of_gt _ _ _ h2 hgt]
        have hpos : 0 < (dpFindMax points).1 := lt_of_le_of_lt htol hgt
        obtain ⟨hm1, hm2, -, -, -⟩ := dpFindMax_pos_bounds points h3 hpos
        have htlen : (points.take ((dpFindMax points).2 + 1)).length =
            (dpFindMax points).2 + 1 := by
          rw [List.length_take]
          omega
        have hdlen : (points.drop (dpFindMax points).2).length =
            points.length - (dpFindMax points).2 := List.length_drop _ _
        rw [ih g₁ g₂ (points.take ((dpFindMax points).2 + 1)) (by omega)
            (by omega) (by omega),
          ih g₁ g₂ (points.drop (dpFindMax points).2) (by omega)
            (by omega) (by omega)]
      · rw [douglasPeuckerF_succ_of_le _ _ _ h2 hgt,
          douglasPeuckerF_succ_of_le _ _ _ h2 hgt]

/-- The recursion equation at the `douglasPeucker` level, for a
nonnegative tolerance. -/
theorem douglasPeucker_rec_eq (points : List (ℚ × ℚ)) (tol : ℚ)
    (htol : 0 ≤ tol) (h2 : ¬ points.length ≤ 2)
    (hgt : (dpFindMax points).1 > tol) :
    douglasPeucker points tol =
      (douglasPeucker (points.take ((dpFindMax points).2 + 1)) tol).dropLast ++
        douglasPeucker (points.drop (dpFindMax points).2) tol := by
  have h3 : 3 ≤ points.length := by omega
  have hpos : 0 < (dpFindMax points).1 := lt_of_le_of_lt htol hgt
  obtain ⟨hm1, hm2, -, -, -⟩ := dpFindMax_pos_bounds points h3 hpos
  have hfuel : douglasPeuckerF points.length points tol =
      douglasPeuckerF ((points.length - 1) + 1) points tol := by
    rw [show (points.length - 1) + 1 = points.length by omega]
  unfold douglasPeucker
  rw [hfuel, douglasPeuckerF_succ_of_gt _ _ _ h2 hgt]
  have htlen : (points.take ((dpFindMax points).2 + 1)).length =
      (dpFindMax points).2 + 1 := by
    rw [List.length_take]
    omega
  have hdlen : (points.drop (dpFindMax points).2).length =
      points.length - (dpFindMax points).2 := List.length_drop _ _
  rw [douglasPeuckerF_congrFuel tol htol points.length (points.length - 1)
      (points.take ((dpFindMax points).2 + 1)).length
      (points.take ((dpFindMax points).2 + 1)) (by omega) (by omega) (by omega),
    douglasPeuckerF_congrFuel tol htol points.length (points.length - 1)
      (points.drop (dpFindMax points).2).length
      (points.drop (dpFindMax points).2) (by omega) (by omega) (by omega)]

/-- Base equation at the `douglasPeucker` level: every interior
distance within tolerance collapses the list to its endpoints. -/
theorem douglasPeucker_base_eq (points : List (ℚ × ℚ))
    (tol : ℚ) (h2 : ¬ points.length ≤ 2)
    (hle : ¬ (dpFindMax points).1 > tol) :
    douglasPeucker points tol =
      [points.getD 0 (0, 0), points.getD (points.length - 1) (0, 0)] := by
  have hfuel : douglasPeuckerF points.length points tol =
      douglasPeuckerF ((points.length - 1) + 1) points tol := by
    rw [show (points.length - 1) + 1 = points.length by omega]
  unfold douglasPeucker
  rw [hfuel, douglasPeuckerF_succ_of_le _ _ _ h2 hle]

theorem douglasPeucker_head? (points : List (ℚ × ℚ)) (tol : ℚ) :
    (douglasPeucker points tol).head? = points.head? :=
  douglasPeuckerF_head? tol points.length points

theorem douglasPeucker_getLast? (points : List (ℚ × ℚ)) (tol : ℚ) :
    (douglasPeucker points tol).getLast? = points.getLast? :=
  douglasPeuckerF_getLast? tol points.length points

theorem douglasPeucker_short (points : List (ℚ × ℚ)) (tol : ℚ)
    (h : points.length ≤ 2) : douglasPeucker points tol = points :=
  douglasPeuckerF_short points.length points tol h

/-! ### Claim theorems for the simplification pass -/

/-- C5: for every coordinate sequence and any tolerance the
simplification keeps the first coordinate first and the last coordinate
last (after the rounding map, their values are the rounded originals),
and the point-removal pass returns every sequence of length at most 2
unchanged. -/
theorem claim_C5_endpoint_preservation :
    (∀ (points : List (ℚ × ℚ)) (toleranceSq : ℚ) (precision : Nat),
      2 ≤ points.length →
      (douglasPeucker points toleranceSq).head? = points.head? ∧
      (douglasPeucker points toleranceSq).getLast? = points.getLast? ∧
      (simplifyLine points precision toleranceSq).head? =
        points.head?.map
          (fun c => (roundCoord precision c.1, roundCoord precision c.2)) ∧
      (simplifyLine points precision toleranceSq).getLast? =
        points.getLast?.map
          (fun c => (roundCoord precision c.1, roundCoord precision c.2))) ∧
    (∀ (points : List (ℚ × ℚ)) (toleranceSq : ℚ), points.length ≤ 2 →
      douglasPeucker points toleranceSq = points) := by
  constructor
  · intro points tolSq prec h2
    refine ⟨douglasPeucker_head? _ _, douglasPeucker_getLast? _ _, ?_, ?_⟩
    · unfold simplifyLine
      rw [List.head?_map, douglasPeucker_head?]
    · unfold simplifyLine
      rw [List.getLast?_map, douglasPeucker_getLast?]
  · intro points tolSq h
    exact douglasPeucker_short points tolSq h

/-- Witness for C5 at a concrete three-point sequence and a concrete
two-point sequence. -/
theorem claim_C5_endpoint_preservation_witness :
    (douglasPeucker [((0:ℚ), (0:ℚ)), (1, 1), (2, 0)] 0).head? =
      [((0:ℚ), (0:ℚ)), (1, 1), (2, 0)].head? ∧
    (douglasPeucker [((0:ℚ), (0:ℚ)), (1, 1), (2, 0)] 0).getLast? =
      [((0:ℚ), (0:ℚ)), (1, 1), (2, 0)].getLast? ∧
    douglasPeucker [((0:ℚ), (0:ℚ)), (5, 5)] 3 = [((0:ℚ), (0:ℚ)), (5, 5)] :=
  ⟨(claim_C5_endpoint_preservation.1 [((0:ℚ), (0:ℚ)), (1, 1), (2, 0)] 0 6
      (by decide)).1,
   (claim_C5_endpoint_preservation.1 [((0:ℚ), (0:ℚ)), (1, 1), (2, 0)] 0 6
      (by decide)).2.1,
   claim_C5_endpoint_preservation.2 [((0:ℚ), (0:ℚ)), (5, 5)] 3 (by decide)⟩

/-- Counterexample to C4 as stated: in the sequence
`(0,0), (1,2), (2,4), (3,0)` the interior point `(1,2)` has positive
perpendicular distance from the chord joining the endpoints (its
squared distance is 4), yet zero-tolerance simplification removes it:
the algorithm first splits at `(2,4)` (squared distance 16), and in the
left half `(1,2)` is collinear with the sub-chord from `(0,0)` to
`(2,4)` and is discarded. -/
theorem claim_C4_counterexample :
    0 < dpDistAt [((0:ℚ), (0:ℚ)), (1, 2), (2, 4), (3, 0)] 1 ∧
    1 < [((0:ℚ), (0:ℚ)), (1, 2), (2, 4), (3, 0)].length - 1 ∧
    ((1:ℚ), (2:ℚ)) ∉ douglasPeucker [((0:ℚ), (0:ℚ)), (1, 2), (2, 4), (3, 0)] 0 := by
  refine ⟨by norm_num [dpDistAt, perpendicularDistanceSq, List.getD], by norm_num, ?_⟩
  rw [show douglasPeucker [((0:ℚ), (0:ℚ)), (1, 2), (2, 4), (3, 0)] 0 =
      [(0, 0), (2, 4), (3, 0)] from by
    norm_num [douglasPeucker, douglasPeuckerF, dpFindMax, dpStep, dpDistAt,
      perpendicularDistanceSq, List.getD, List.range_succ]]
  norm_num

/-- C4 (amended): with zero tolerance the retention/removal property of
the claim holds at each recursive step rather than globally.  For a
sequence with at least one interior point: if every interior point is
collinear with the chord joining the endpoints (squared perpendicular
distance 0), all interior points are removed and only the two endpoints
remain; if some interior point has distance greater than 0, the split
point is the first interior index of maximum perpendicular distance
from the endpoint chord, it is retained in the output, and the
algorithm recurses on the two halves around it. -/
theorem claim_C4_zero_tolerance (points : List (ℚ × ℚ))
    (h3 : 3 ≤ points.length) :
    ((∀ i, 1 ≤ i → i < points.length - 1 → dpDistAt points i = 0) →
      douglasPeucker points 0 =
        [points.getD 0 (0, 0), points.getD (points.length - 1) (0, 0)]) ∧
    ((∃ i, 1 ≤ i ∧ i < points.length - 1 ∧ 0 < dpDistAt points i) →
      1 ≤ (dpFindMax points).2 ∧ (dpFindMax points).2 < points.length - 1 ∧
      (dpFindMax points).1 = dpDistAt points (dpFindMax points).2 ∧
      (∀ i, 1 ≤ i → i < points.length - 1 →
        dpDistAt points i ≤ (dpFindMax points).1) ∧
      (∀ i, 1 ≤ i → i < (dpFindMax points).2 →
        dpDistAt points i < (dpFindMax points).1) ∧
      douglasPeucker points 0 =
        (douglasPeucker (points.take ((dpFindMax points).2 + 1)) 0).dropLast ++
          douglasPeucker (points.drop (dpFindMax points).2) 0 ∧
      points.getD (dpFindMax points).2 (0, 0) ∈ douglasPeucker points 0) := by
  have h2 : ¬ points.length ≤ 2 := by omega
  constructor
  · intro hall
    have hle : ¬ (dpFindMax points).1 > 0 := by
      obtain ⟨hnn, hdom, halt⟩ := dpFindMax_spec points h3
      rcases halt with h | ⟨ha, hb, hc, hd, he⟩
      · rw [h]
        norm_num
      · rw [hd, hall _ hb hc] at ha
        exact absurd ha (by norm_num)
    exact douglasPeucker_base_eq points 0 h2 hle
  · rintro ⟨i, hi1, hi2, hipos⟩
    have hpos : 0 < (dpFindMax points).1 := by
      obtain ⟨hnn, hdom, halt⟩ := dpFindMax_spec points h3
      exact lt_of_lt_of_le hipos (hdom i hi1 hi2)
    obtain ⟨hm1, hm2, hmd, hdom, hfirst⟩ := dpFindMax_pos_bounds points h3 hpos
    have hrec := douglasPeucker_rec_eq points 0 (le_refl 0) h2 hpos
    refine ⟨hm1, hm2, hmd, hdom, hfirst, hrec, ?_⟩
    have hdropne : points.drop (dpFindMax points).2 ≠ [] := by
      intro hnil
      have h₄ := congrArg List.length hnil
      rw [List.length_drop] at h₄
      simp at h₄
      omega
    have hhead : (douglasPeucker (points.drop (dpFindMax points).2) 0).head? =
        some (points.getD (dpFindMax points).2 (0, 0)) := by
      rw [douglasPeucker_head?, head?_eq_getD _ hdropne (0, 0)]
      congr 1
      rw [List.getD_eq_getElem?_getD, List.getD_eq_getElem?_getD,
        List.getElem?_drop, Nat.add_zero]
    have hmem : points.getD (dpFindMax points).2 (0, 0) ∈
        douglasPeucker (points.drop (dpFindMax points).2) 0 :=
      List.mem_of_mem_head? (Option.mem_def.mpr hhead)
    rw [hrec]
    exact List.mem_append_right _ hmem

/-- Witness for the amended C4 at the counterexample sequence: the
split index is interior and the split point is retained. -/
theorem claim_C4_zero_tolerance_witness :
    1 ≤ (dpFindMax [((0:ℚ), (0:ℚ)), (1, 2), (2, 4), (3, 0)]).2 ∧
    [((0:ℚ), (0:ℚ)), (1, 2), (2, 4), (3, 0)].getD
        (dpFindMax [((0:ℚ), (0:ℚ)), (1, 2), (2, 4), (3, 0)]).2 (0, 0) ∈
      douglasPeucker [((0:ℚ), (0:ℚ)), (1, 2), (2, 4), (3, 0)] 0 :=
  ⟨((claim_C4_zero_tolerance [((0:ℚ), (0:ℚ)), (1, 2), (2, 4), (3, 0)]
      (by norm_num)).2 ⟨1, le_rfl, by norm_num,
        by norm_num [dpDistAt, perpendicularDistanceSq, List.getD]⟩).1,
   ((claim_C4_zero_tolerance [((0:ℚ), (0:ℚ)), (1, 2), (2, 4), (3, 0)]
      (by norm_num)).2 ⟨1, le_rfl, by norm_num,
        by norm_num [dpDistAt, perpendicularDistanceSq, List.getD]⟩).2.2.2.2.2.2⟩

/-- C9: with a degenerate chord (`lineStart = lineEnd`) the
perpendicular-distance routine returns the distance of the point to
that shared endpoint (squared, by the convention of this file); as a
consequence, for a closed ring whose first and last coordinates
coincide, every distance the top-level scan compares against the
tolerance is the distance of the interior point to that single shared
point. -/
theorem claim_C9_degenerate_chord :
    (∀ p a : ℚ × ℚ, perpendicularDistanceSq p a a = pointDistanceSq p a) ∧
    (∀ points : List (ℚ × ℚ),
      points.getD 0 (0, 0) = points.getD (points.length - 1) (0, 0) →
      ∀ i, dpDistAt points i =
        pointDistanceSq (points.getD i (0, 0)) (points.getD 0 (0, 0))) := by
  have h₁ : ∀ p a : ℚ × ℚ, perpendicularDistanceSq p a a = pointDistanceSq p a := by
    intro p a
    norm_num [perpendicularDistanceSq, pointDistanceSq]
  refine ⟨h₁, ?_⟩
  intro points hring i
  unfold dpDistAt
  rw [← hring]
  exact h₁ _ _

/-- Witness for C9 at a concrete closed ring. -/
theorem claim_C9_degenerate_chord_witness :
    dpDistAt [((0:ℚ), (0:ℚ)), (1, 5), (2, 0), (0, 0)] 1 =
      pointDistanceSq ([((0:ℚ), (0:ℚ)), (1, 5), (2, 0), (0, 0)].getD 1 (0, 0))
        ([((0:ℚ), (0:ℚ)), (1, 5), (2, 0), (0, 0)].getD 0 (0, 0)) :=
  claim_C9_degenerate_chord.2 [((0:ℚ), (0:ℚ)), (1, 5), (2, 0), (0, 0)] rfl 1

/-! ### Claim theorems for the loadPeriod state machine -/

/-- C1: a `loadPeriod` call that arrives while a load is in progress
only records the new index and resolves immediately with null, changing
nothing else (in particular it starts no fetch); and in the concrete
scenario `loadPeriod(1); loadPeriod(2); loadPeriod(3)` issued
synchronously, only two fetches ever start (for indices 1 and 3 — index
2 is skipped entirely), calls 2 and 3 resolve to null, the single
result carrying a dataset is the first call resolving with the dataset
fetched for index 3, and the dataset fetched for index 1 is never
delivered to any caller. -/
theorem claim_C1_request_coalescing :
    (∀ (workerCreationOk : Bool) (s : DSState) (c i : Nat),
      s.isLoading = true →
      stepCall workerCreationOk c i s =
        { s with pendingIndex := some i,
                 results := s.results ++ [(c, Except.ok none)] }) ∧
    (c1Final.results =
      [(11, Except.ok none), (12, Except.ok none), (10, Except.ok (some 501))] ∧
     c1Final.fetchLog = [(1, FetchChannel.worker), (3, FetchChannel.worker)] ∧
     (∀ r ∈ c1Final.results, r.2 ≠ Except.ok (some 500))) := by
  constructor
  · intro wok s c i h
    simp [stepCall, h]
  · refine ⟨by decide, by decide, by decide⟩

/-- Witness for C1: the in-progress conjunct applied at a concrete
loading state. -/
theorem claim_C1_request_coalescing_witness :
    stepCall true 7 4 { initState none with isLoading := true } =
      { { initState none with isLoading := true } with
          pendingIndex := some 4,
          results := ({ initState none with isLoading := true }).results ++
            [(7, Except.ok none)] } :=
  claim_C1_request_coalescing.1 true { initState none with isLoading := true }
    7 4 rfl

/-- Once `workerFailed` is set it survives every event. -/
theorem stepEvent_workerFailed (wok : Bool) (s : DSState) (e : DSEvent)
    (h : s.workerFailed = true) : (stepEvent wok s e).workerFailed = true := by
  obtain ⟨ca, pi, il, wf, wu, inf, idle, res, fl⟩ := s
  replace h : wf = true := h
  subst h
  cases e with
  | call c i =>
    by_cases hl : il = true
    · simp [stepEvent, stepCall, hl]
    · by_cases hh : ca.has i = true
      · simp [stepEvent, stepCall, hl, loopIter, hh]
      · simp [stepEvent, stepCall, hl, loopIter, hh, fetchDataStart, getWorker]
  | fetchResolve d =>
    cases inf with
    | none => simp [stepEvent, stepResolve]
    | some trip =>
      obtain ⟨c, t, ch⟩ := trip
      cases pi with
      | none => simp [stepEvent, stepResolve]
      | some nxt =>
        by_cases hh : (ca.set t d).has nxt = true
        · simp [stepEvent, stepResolve, loopIter, hh]
        · simp [stepEvent, stepResolve, loopIter, hh, fetchDataStart, getWorker]
  | fetchFail =>
    cases inf with
    | none => simp [stepEvent, stepFail]
    | some trip =>
      obtain ⟨c, t, ch⟩ := trip
      cases ch with
      | worker => simp [stepEvent, stepFail]
      | mainThread => simp [stepEvent, stepFail]

theorem runEvents_workerFailed (wok : Bool) (s : DSState) (evs : List DSEvent)
    (h : s.workerFailed = true) : (runEvents wok s evs).workerFailed = true := by
  induction evs generalizing s with
  | nil => exact h
  | cons e rest ih =>
    have h₂ : runEvents wok s (e :: rest) = runEvents wok (stepEvent wok s e) rest := rfl
    rw [h₂]
    exact ih _ (stepEvent_workerFailed wok s e h)

/-- `getWorker` never touches the recorded settlements. -/
theorem getWorker_results (wok : Bool) (s : DSState) :
    (getWorker wok s).2.results = s.results := by
  unfold getWorker
  split_ifs <;> rfl

/-- Every event extends `results` only with settlements that are not a
worker-unavailability error (null, a dataset, or a network error). -/
theorem stepEvent_results_append (wok : Bool) (s : DSState) (e : DSEvent) :
    ∃ tail, (stepEvent wok s e).results = s.results ++ tail ∧
      ∀ r ∈ tail, r.2 ≠ Except.error LoadError.workerUnavailable := by
  obtain ⟨ca, pi, il, wf, wu, inf, idle, res, fl⟩ := s
  cases e with
  | call c i =>
    by_cases hl : il = true
    · exact ⟨[(c, Except.ok none)], by simp [stepEvent, stepCall, hl], by simp⟩
    · by_cases hh : ca.has i = true
      · refine ⟨[(c, Except.ok (some ((ca.get i).1.getD 0)))], ?_, by simp⟩
        simp [stepEvent, stepCall, hl, loopIter, hh]
      · refine ⟨[], ?_, by simp⟩
        simp [stepEvent, stepCall, hl, loopIter, hh, fetchDataStart, getWorker_results]
  | fetchResolve d =>
    cases inf with
    | none => exact ⟨[], by simp [stepEvent, stepResolve], by simp⟩
    | some trip =>
      obtain ⟨c, t, ch⟩ := trip
      cases pi with
      | none =>
        exact ⟨[(c, Except.ok (some d))], by simp [stepEvent, stepResolve], by simp⟩
      | some nxt =>
        by_cases hh : (ca.set t d).has nxt = true
        · refine ⟨[(c, Except.ok (some (((ca.set t d).get nxt).1.getD 0)))], ?_, by simp⟩
          simp [stepEvent, stepResolve, loopIter, hh]
        · refine ⟨[], ?_, by simp⟩
          simp [stepEvent, stepResolve, loopIter, hh, fetchDataStart, getWorker_results]
  | fetchFail =>
    cases inf with
    | none => exact ⟨[], by simp [stepEvent, stepFail], by simp⟩
    | some trip =>
      obtain ⟨c, t, ch⟩ := trip
      cases ch with
      | worker => exact ⟨[], by simp [stepEvent, stepFail], by simp⟩
      | mainThread =>
        exact ⟨[(c, Except.error LoadError.network)],
          by simp [stepEvent, stepFail], by simp⟩

theorem runEvents_no_workerUnavailable (wok : Bool) (s : DSState)
    (evs : List DSEvent)
    (hs : ∀ r ∈ s.results, r.2 ≠ Except.error LoadError.workerUnavailable) :
    ∀ r ∈ (runEvents wok s evs).results,
      r.2 ≠ Except.error LoadError.workerUnavailable := by
  induction evs generalizing s with
  | nil => exact hs
  | cons e rest ih =>
    have h₂ : runEvents wok s (e :: rest) = runEvents wok (stepEvent wok s e) rest := rfl
    rw [h₂]
    refine ih _ ?_
    intro r hr
    obtain ⟨tail, heq, htail⟩ := stepEvent_results_append wok s e
    rw [heq] at hr
    rcases List.mem_append.mp hr with h | h
    · exact hs r h
    · exact htail r h

/-- C6: if worker construction fails, a `loadPeriod` on a cache miss
marks the worker failed and starts the fetch on the main-thread channel,
and when that fetch resolves the caller receives the dataset (a normal
successful resolution); a failed worker makes `getWorker` answer null
without touching the state, so every later request takes the direct
path; `workerFailed` stays set across every subsequent event; and no
run from a fresh service ever settles a caller promise with the
worker-unavailability error. -/
theorem claim_C6_fallback_transparency :
    (∀ (c i : Nat) (d : Dataset) (s : DSState),
      s.isLoading = false → s.workerFailed = false → s.workerUp = false →
      s.cache.has i = false →
      (stepCall false c i s).workerFailed = true ∧
      (stepCall false c i s).inFlight = some (c, i, FetchChannel.mainThread) ∧
      (stepResolve false d (stepCall false c i s)).results =
        (stepCall false c i s).results ++ [(c, Except.ok (some d))]) ∧
    (∀ (workerCreationOk : Bool) (s : DSState), s.workerFailed = true →
      getWorker workerCreationOk s = (none, s)) ∧
    (∀ (workerCreationOk : Bool) (s : DSState) (evs : List DSEvent),
      s.workerFailed = true →
      (runEvents workerCreationOk s evs).workerFailed = true) ∧
    (∀ (workerCreationOk : Bool) (dm : Option ℚ) (evs : List DSEvent),
      ∀ r ∈ (runEvents workerCreationOk (initState dm) evs).results,
        r.2 ≠ Except.error LoadError.workerUnavailable) := by
  refine ⟨?_, ?_, ?_, ?_⟩
  · intro c i d s h₁ h₂ h₃ h₄
    obtain ⟨ca, pi, il, wf, wu, inf, idle, res, fl⟩ := s
    replace h₁ : il = false := h₁
    replace h₂ : wf = false := h₂
    replace h₃ : wu = false := h₃
    replace h₄ : ca.has i = false := h₄
    subst h₁
    subst h₂
    subst h₃
    refine ⟨?_, ?_, ?_⟩ <;>
      simp [stepCall, loopIter, h₄, fetchDataStart, getWorker, stepResolve]
  · intro wok s h
    obtain ⟨ca, pi, il, wf, wu, inf, idle, res, fl⟩ := s
    replace h : wf = true := h
    subst h
    simp [getWorker]
  · intro wok s evs h
    exact runEvents_workerFailed wok s evs h
  · intro wok dm evs
    refine runEvents_no_workerUnavailable wok (initState dm) evs ?_
    intro r hr
    simp [initState] at hr

/-- Witness for C6: worker construction failing on a fresh service,
plus the disabled-worker, permanence and no-channel-error conjuncts at
concrete inputs. -/
theorem claim_C6_fallback_transparency_witness :
    ((stepCall false 7 2 (initState none)).workerFailed = true ∧
     (stepCall false 7 2 (initState none)).inFlight =
       some (7, 2, FetchChannel.mainThread) ∧
     (stepResolve false 42 (stepCall false 7 2 (initState none))).results =
       (stepCall false 7 2 (initState none)).results ++
         [(7, Except.ok (some 42))]) ∧
    getWorker true { initState none with workerFailed := true } =
      (none, { initState none with workerFailed := true }) ∧
    (runEvents true { initState none with workerFailed := true }
      [DSEvent.call 10 1]).workerFailed = true ∧
    (∀ r ∈ (runEvents true (initState none) [DSEvent.call 10 1]).results,
      r.2 ≠ Except.error LoadError.workerUnavailable) :=
  ⟨claim_C6_fallback_transparency.1 7 2 42 (initState none) rfl rfl rfl (by decide),
   claim_C6_fallback_transparency.2.1 true _ rfl,
   claim_C6_fallback_transparency.2.2.1 true _ [DSEvent.call 10 1] rfl,
   claim_C6_fallback_transparency.2.2.2 true none [DSEvent.call 10 1]⟩

/-- Counterexample to C7 as stated: worker creation fails (so both
fetches run on the main thread); `loadPeriod(1)` (call 10) misses the
cache and fetches; `loadPeriod(2)` (call 11) arrives mid-flight and
resolves to null; the fetch for index 1 resolves and the loop caches
dataset 500 before fetching index 2; that second (authoritative) fetch
fails.  Call 10 rejects with the network error and `isLoading` is reset
— but the cache was mutated by the failed call: period 1 is now cached
although it was not when the call started. -/
theorem claim_C7_counterexample :
    (10, Except.error LoadError.network) ∈ c7Final.results ∧
    c7Final.isLoading = false ∧
    (initState none).cache.has 1 = false ∧
    c7Final.cache.has 1 = true := by
  decide

/-- C7 (amended): when the authoritative main-thread fetch rejects, the
outer promise rejects with the network error, `isLoading` is reset to
false, and the failure handling itself leaves every other component of
the loader state — cache, pending index, worker flags, preload slot,
fetch log — exactly as it was (datasets cached by earlier iterations of
the same call are kept, so the cache can differ from its state at call
entry). -/
theorem claim_C7_error_atomicity (s : DSState) (c t : Nat)
    (h : s.inFlight = some (c, t, FetchChannel.mainThread)) :
    (stepFail s).results = s.results ++ [(c, Except.error LoadError.network)] ∧
    (stepFail s).isLoading = false ∧
    (stepFail s).cache = s.cache ∧
    (stepFail s).pendingIndex = s.pendingIndex ∧
    (stepFail s).workerFailed = s.workerFailed ∧
    (stepFail s).workerUp = s.workerUp ∧
    (stepFail s).idleScheduled = s.idleScheduled ∧
    (stepFail s).fetchLog = s.fetchLog ∧
    (stepFail s).inFlight = none := by
  obtain ⟨ca, pi, il, wf, wu, inf, idle, res, fl⟩ := s
  replace h : inf = some (c, t, FetchChannel.mainThread) := h
  subst h
  simp [stepFail]

/-- Witness for the amended C7 at a concrete suspended state. -/
theorem claim_C7_error_atomicity_witness :
    (stepFail { initState none with
        inFlight := some (7, 3, FetchChannel.mainThread) }).results =
      ({ initState none with
        inFlight := some (7, 3, FetchChannel.mainThread) }).results ++
        [(7, Except.error LoadError.network)] ∧
    (stepFail { initState none with
        inFlight := some (7, 3, FetchChannel.mainThread) }).isLoading = false ∧
    (stepFail { initState none with
        inFlight := some (7, 3, FetchChannel.mainThread) }).cache =
      ({ initState none with
        inFlight := some (7, 3, FetchChannel.mainThread) }).cache :=
  ⟨(claim_C7_error_atomicity _ 7 3 rfl).1,
   (claim_C7_error_atomicity _ 7 3 rfl).2.1,
   (claim_C7_error_atomicity _ 7 3 rfl).2.2.1⟩

/-! ### Claim theorems for the worker correlation table -/

theorem settlePromise_findVal_pending (id : Nat) (r : PromiseState)
    (l : List (Nat × PromiseState))
    (h : findVal id l = some PromiseState.pending) :
    findVal id (settlePromise id r l) = some r := by
  induction l with
  | nil => simp [findVal] at h
  | cons hd tl ih =>
    obtain ⟨k, v⟩ := hd
    by_cases hk : k = id
    · subst hk
      simp only [findVal, if_pos rfl] at h
      replace h : v = PromiseState.pending := by
        injection h
      subst h
      simp only [settlePromise, List.map_cons]
      simp [findVal]
    · simp only [findVal, if_neg hk] at h
      simp only [settlePromise, List.map_cons]
      rw [if_neg (fun hc => hk hc.1)]
      simp only [findVal, if_neg hk]
      exact ih h

theorem settlePromise_findVal_ne (id : Nat) (r : PromiseState)
    (l : List (Nat × PromiseState)) (p : Nat) (h : p ≠ id) :
    findVal p (settlePromise id r l) = findVal p l := by
  induction l with
  | nil => rfl
  | cons hd tl ih =>
    obtain ⟨k, v⟩ := hd
    simp only [settlePromise, List.map_cons]
    by_cases hc : k = id ∧ v = PromiseState.pending
    · rw [if_pos hc]
      obtain ⟨hk, hv⟩ := hc
      subst hk
      subst hv
      simp only [findVal]
      rw [if_neg (Ne.symm h), if_neg (Ne.symm h)]
      exact ih
    · rw [if_neg hc]
      simp only [findVal]
      by_cases hk : k = p
      · rw [if_pos hk, if_pos hk]
      · rw [if_neg hk, if_neg hk]
        exact ih

/-- C8: the per-request timer is 30000 ms; when it fires for a request
still pending in the correlation table, that entry is removed and the
promise is rejected with the timeout error; the timeout flips no
worker flag, so the delegated channel stays exactly as available as it
was — in particular a service whose worker is up and not failed still
hands it out for the next request. -/
theorem claim_C8_worker_timeout :
    workerTimeoutMs = 30000 ∧
    (∀ (s : WorkerState) (id : Nat), id ∈ s.timers →
      s.pendingRequests.Nodup →
      findVal id s.promises = some PromiseState.pending →
      ¬ id ∈ (timeoutFire id s).pendingRequests ∧
      findVal id (timeoutFire id s).promises =
        some (PromiseState.rejected WError.timeout) ∧
      (timeoutFire id s).workerFailed = s.workerFailed) ∧
    (∀ (workerCreationOk : Bool) (s : DSState), s.workerFailed = false →
      s.workerUp = true → getWorker workerCreationOk s = (some (), s)) := by
  refine ⟨rfl, ?_, ?_⟩
  · intro s id harm hnd hpend
    refine ⟨?_, ?_, ?_⟩
    · simp only [timeoutFire, if_pos harm]
      intro hmem
      exact absurd ((List.Nodup.mem_erase_iff hnd).mp hmem).1 (by simp)
    · simp only [timeoutFire, if_pos harm]
      exact settlePromise_findVal_pending id _ s.promises hpend
    · simp only [timeoutFire, if_pos harm]
  · intro wok s h₁ h₂
    obtain ⟨ca, pi, il, wf, wu, inf, idle, res, fl⟩ := s
    replace h₁ : wf = false := h₁
    replace h₂ : wu = true := h₂
    subst h₁
    subst h₂
    simp [getWorker]

/-- Witness for C8 after one `fetchViaWorker` call (request id 1). -/
theorem claim_C8_worker_timeout_witness :
    ¬ 1 ∈ (timeoutFire 1 (fetchViaWorker 7 initWorkerState)).pendingRequests ∧
    findVal 1 (timeoutFire 1 (fetchViaWorker 7 initWorkerState)).promises =
      some (PromiseState.rejected WError.timeout) ∧
    (timeoutFire 1 (fetchViaWorker 7 initWorkerState)).workerFailed =
      (fetchViaWorker 7 initWorkerState).workerFailed ∧
    getWorker true { initState none with workerUp := true } =
      (some (), { initState none with workerUp := true }) :=
  ⟨(claim_C8_worker_timeout.2.1 (fetchViaWorker 7 initWorkerState) 1
      (by decide) (by decide) (by decide)).1,
   (claim_C8_worker_timeout.2.1 (fetchViaWorker 7 initWorkerState) 1
      (by decide) (by decide) (by decide)).2.1,
   (claim_C8_worker_timeout.2.1 (fetchViaWorker 7 initWorkerState) 1
      (by decide) (by decide) (by decide)).2.2,
   claim_C8_worker_timeout.2.2 true { initState none with workerUp := true }
     rfl rfl⟩

/-- C10: a worker response whose id is not in the correlation table
changes nothing at all — in particular it settles no promise; a
response whose id is present removes exactly that entry, leaves the
promise of every other id untouched, and settles the matching promise
according to its payload (reject on an error, resolve on a dataset,
nothing when the response carries neither). -/
theorem claim_C10_stale_response_isolation :
    (∀ (s : WorkerState) (r : WorkerResponse), ¬ r.id ∈ s.pendingRequests →
      onmessage r s = s) ∧
    (∀ (s : WorkerState) (r : WorkerResponse), r.id ∈ s.pendingRequests →
      (onmessage r s).pendingRequests = s.pendingRequests.erase r.id ∧
      (∀ p, p ≠ r.id → findVal p (onmessage r s).promises = findVal p s.promises) ∧
      (∀ e, r.error = some e →
        findVal r.id s.promises = some PromiseState.pending →
        findVal r.id (onmessage r s).promises =
          some (PromiseState.rejected (WError.remote e))) ∧
      (∀ d, r.error = none → r.geojson = some d →
        findVal r.id s.promises = some PromiseState.pending →
        findVal r.id (onmessage r s).promises =
          some (PromiseState.resolved d)) ∧
      (r.error = none → r.geojson = none →
        (onmessage r s).promises = s.promises)) := by
  constructor
  · intro s r h
    simp [onmessage, h]
  · intro s r h
    obtain ⟨id, gj, er⟩ := r
    replace h : id ∈ s.pendingRequests := h
    cases er with
    | some e =>
      refine ⟨by simp [onmessage, h], ?_, ?_, ?_, ?_⟩
      · intro p hp
        simp only [onmessage, if_pos h]
        exact settlePromise_findVal_ne id _ s.promises p hp
      · intro e₂ he hpend
        replace he : e₂ = e := by
          injection he with h₃
          exact h₃.symm
        subst he
        simp only [onmessage, if_pos h]
        exact settlePromise_findVal_pending id _ s.promises hpend
      · intro d he hgj hpend
        exact absurd he (by simp)
      · intro he hgj
        exact absurd he (by simp)
    | none =>
      cases gj with
      | some d =>
        refine ⟨by simp [onmessage, h], ?_, ?_, ?_, ?_⟩
        · intro p hp
          simp only [onmessage, if_pos h]
          exact settlePromise_findVal_ne id _ s.promises p hp
        · intro e₂ he hpend
          exact absurd he (by simp)
        · intro d₂ he hgj hpend
          replace hgj : d₂ = d := by
            injection hgj with h₃
            exact h₃.symm
          subst hgj
          simp only [onmessage, if_pos h]
          exact settlePromise_findVal_pending id _ s.promises hpend
        · intro he hgj
          exact absurd hgj (by simp)
      | none =>
        refine ⟨by simp [onmessage, h], ?_, ?_, ?_, ?_⟩
        · intro p hp
          simp [onmessage, h]
        · intro e₂ he hpend
          exact absurd he (by simp)
        · intro d₂ he hgj hpend
          exact absurd hgj (by simp)
        · intro he hgj
          simp [onmessage, h]

/-- Witness for C10: a stale id (5) is ignored outright; a matching id
(1) is removed from the table and its promise resolves with the
dataset. -/
theorem claim_C10_stale_response_isolation_witness :
    onmessage ⟨5, none, none⟩ (fetchViaWorker 7 initWorkerState) =
      fetchViaWorker 7 initWorkerState ∧
    (onmessage ⟨1, some 42, none⟩
        (fetchViaWorker 7 initWorkerState)).pendingRequests =
      (fetchViaWorker 7 initWorkerState).pendingRequests.erase 1 ∧
    findVal 1 (onmessage ⟨1, some 42, none⟩
        (fetchViaWorker 7 initWorkerState)).promises =
      some (PromiseState.resolved 42) :=
  ⟨claim_C10_stale_response_isolation.1 (fetchViaWorker 7 initWorkerState)
      ⟨5, none, none⟩ (by decide),
   (claim_C10_stale_response_isolation.2 (fetchViaWorker 7 initWorkerState)
      ⟨1, some 42, none⟩ (by decide)).1,
   (claim_C10_stale_response_isolation.2 (fetchViaWorker 7 initWorkerState)
      ⟨1, some 42, none⟩ (by decide)).2.2.2.1 42 rfl rfl (by decide)⟩
